import Mathlib

/-!
# Verification of the jumppad resource engine and providers

A shallow embedding of the jumppad repository's resource-engine and
provider code, together with proofs of the specified properties.

Pure logic from the Go sources (name validation, provider lifecycle
decisions, the cluster start wait-loop) is translated directly; effectful
collaborator calls (file reads, docker calls, log reads) are passed in as
explicit result values.  Components of the repository that are described
by the specification but whose source is not available (the dependency
graph engine, scheduler, diff engine and state store) are modelled from
the specification text; their doc comments say so explicitly.
-/

namespace Jumppad

/-! ## utils: resource-name validation

Translated from `utils.ValidateName`:
a length check against 128 (Go `len`, i.e. UTF-8 byte length) applied
first, then the regular expression `^[a-zA-Z0-9\-_]+$`. -/

/-- Go's `len(s)` on a string: the UTF-8 byte length. -/
def goStringLen (s : String) : Nat :=
  (s.data.map Char.utf8Size).sum

/-- The character class `[a-zA-Z0-9\-_]` of the validation regex. -/
def isNameChar (c : Char) : Bool :=
  ('a' ≤ c && c ≤ 'z') || ('A' ≤ c && c ≤ 'Z') ||
  ('0' ≤ c && c ≤ '9') || c == '-' || c == '_'

/-- `^[a-zA-Z0-9\-_]+$` matches exactly the non-empty strings of valid
name characters. -/
def nameRegexMatch (s : String) : Bool :=
  !s.data.isEmpty && s.data.all isNameChar

/-- The two error values returned by `ValidateName`. -/
inductive NameError where
  | nameExceedsMaxLength
  | nameContainsInvalidCharacters
deriving DecidableEq, Repr

/-- `utils.ValidateName`: length check first (Go byte length, bound 128),
then the regex; returns the Go pair `(bool, error)` with `error`
modelled as `Option NameError`. -/
def ValidateName (name : String) : Bool × Option NameError :=
  if 128 < goStringLen name then
    (false, some .nameExceedsMaxLength)
  else if nameRegexMatch name then
    (true, none)
  else
    (false, some .nameContainsInvalidCharacters)

/-! ## providers/certs.go

The leaf-certificate `Create` and the shared certificate `destroy`
helper.  File-system and crypto collaborator calls are passed in as
explicit results; the control flow (the order of the reads, the
retry-wrapping of the two CA reads, and the point at which the output
fields are assigned) is translated from the source. -/

/-- Error classification used by the outer bounded-retry policy:
`retry.RetryableError` wraps an error that may be retried, every other
error is plain (fatal to the attempt). -/
inductive RetryClass where
  | retryable (msg : String)
  | plain (msg : String)
deriving DecidableEq, Repr

/-- The output fields `CertificateLeaf.Create` assigns on the config on
success (`PublicKeySSH`, `PublicKeyPEM`, `Cert`, `PrivateKey`); `none`
means the field was never set. -/
structure LeafOutputs where
  publicKeySSH : Option String
  publicKeyPEM : Option String
  cert : Option String
  privateKey : Option String
deriving DecidableEq, Repr

/-- Output fields before `Create` runs: nothing set. -/
def noLeafOutputs : LeafOutputs := ⟨none, none, none, none⟩

/-- The results of the external calls `CertificateLeaf.Create` makes, in
source order.  `generateKeyPair` returns the (private, public) pair. -/
structure LeafSteps where
  readCACert : Except String Unit
  readCAKey : Except String Unit
  generateKeyPair : Except String (String × String)
  generateLeaf : Except String String
  pemToOpenSSH : Except String String
  writeCert : Except String Unit
  writeKey : Except String Unit
  writePub : Except String Unit
  writeSSH : Except String Unit

/-- `CertificateLeaf.Create`: reads the CA certificate and CA key
(each failure wrapped `retry.RetryableError`), generates the key pair
and leaf, writes the four files, and only then sets the four output
fields.  Returns the final output-field assignment together with the
Go error value. -/
def CertificateLeafCreate (s : LeafSteps) : LeafOutputs × Except RetryClass Unit :=
  match s.readCACert with
  | .error e => (noLeafOutputs, .error (.retryable ("Unable to read root certificate: " ++ e)))
  | .ok _ =>
  match s.readCAKey with
  | .error e => (noLeafOutputs, .error (.retryable ("Unable to read root key: " ++ e)))
  | .ok _ =>
  match s.generateKeyPair with
  | .error e => (noLeafOutputs, .error (.plain e))
  | .ok (priv, pub) =>
  match s.generateLeaf with
  | .error e => (noLeafOutputs, .error (.plain e))
  | .ok lc =>
  match s.pemToOpenSSH with
  | .error e => (noLeafOutputs, .error (.plain e))
  | .ok ssh =>
  match s.writeCert with
  | .error e => (noLeafOutputs, .error (.plain e))
  | .ok _ =>
  match s.writeKey with
  | .error e => (noLeafOutputs, .error (.plain e))
  | .ok _ =>
  match s.writePub with
  | .error e => (noLeafOutputs, .error (.plain e))
  | .ok _ =>
  match s.writeSSH with
  | .error e => (noLeafOutputs, .error (.plain e))
  | .ok _ =>
    ({ publicKeySSH := some ssh, publicKeyPEM := some pub,
       cert := some lc, privateKey := some priv }, .ok ())

/-- `providers.destroy` (the shared certificate destroy helper): removes
the key, public key, ssh key and certificate files; each removal
failure is only logged (returned in the log list) and the function
always returns `nil`.  (The trailing empty-module-directory cleanup
cannot change the return value and is omitted.) -/
def certsDestroy (rmKey rmPub rmSSH rmCert : Except String Unit) :
    List String × Except String Unit :=
  let l1 := match rmKey with
    | .error e => ["Unable to remove private key: " ++ e]
    | .ok _ => []
  let l2 := match rmPub with
    | .error e => ["Unable to remove public key: " ++ e]
    | .ok _ => []
  let l3 := match rmSSH with
    | .error e => ["Unable to remove ssh key: " ++ e]
    | .ok _ => []
  let l4 := match rmCert with
    | .error e => ["Unable to remove certificate: " ++ e]
    | .ok _ => []
  (l1 ++ l2 ++ l3 ++ l4, .ok ())

/-! ## providers/ingress.go -/

/-- `Ingress.Destroy`: calls `connector.RemoveService`; a failure is
logged as a warning and deliberately not returned ("fail silently as
this should not stop us from destroying the other resources"). -/
def ingressDestroy (removeService : Except String Unit) :
    List String × Except String Unit :=
  match removeService with
  | .error e => (["Unable to remove local ingress: " ++ e], .ok ())
  | .ok _ => ([], .ok ())

/-! ## K8sConfig provider -/

/-- `K8sConfig.Destroy`: a `setup` failure is returned, but a failure of
`client.Delete` (the removal of the applied configuration) is only
logged and the function returns `nil`. -/
def k8sConfigDestroy (setup : Except String Unit) (deleteConfig : Except String Unit) :
    List String × Except String Unit :=
  match setup with
  | .error e => ([], .error e)
  | .ok _ =>
    match deleteConfig with
    | .error e =>
        (["There was a problem destroying Kubernetes config, logging message but ignoring error: " ++ e],
         .ok ())
    | .ok _ => ([], .ok ())

/-! ## resources/build/provider.go

The build provider's change detection and refresh.  `utils.HashDir`
(the order-independent `dirhash` of the build context directory) is an
external library call and is passed in as its result. -/

/-- `Provider.hasChanged`: hashes the build-context directory and
compares against the stored `BuildChecksum`. -/
def buildHasChanged (hashDir : Except String String) (buildChecksum : String) :
    Except String Bool :=
  match hashDir with
  | .error e => .error ("unable to hash directory: " ++ e)
  | .ok h => .ok (h != buildChecksum)

/-- `Provider.Changed` for the build resource: returns exactly
`hasChanged` (plus a debug log when changed). -/
def buildChanged (hashDir : Except String String) (buildChecksum : String) :
    Except String Bool :=
  match buildHasChanged hashDir buildChecksum with
  | .error e => .error e
  | .ok b => .ok b

/-- The externally visible actions of the build provider. -/
inductive BuildAction where
  | destroyImage
  | createImage
deriving DecidableEq, Repr

/-- `Provider.Refresh` for the build resource: when `hasChanged` reports
true it calls `Destroy()` then `Create()` (the rebuild's own result is
passed in as `rebuild`); when unchanged it does nothing and returns
`nil`. -/
def buildRefresh (hashDir : Except String String) (buildChecksum : String)
    (rebuild : Except String Unit) : List BuildAction × Except String Unit :=
  match buildHasChanged hashDir buildChecksum with
  | .error e => ([], .error e)
  | .ok true => ([.destroyImage, .createImage], rebuild)
  | .ok false => ([], .ok ())

/-! ## resources/k8s/provider_cluster.go

The bounded readiness wait `waitForStart` and the tail of `createK3s`.
The container-log read at each one-second poll is passed in as a
function of the iteration index (the Go loop sleeps one second between
iterations, so the iteration index is the elapsed time in seconds);
`startTimeout` is 300 seconds in the source. -/

/-- List version of Go `strings.HasPrefix` used by the substring scan. -/
def listStartsWith : List Char → List Char → Bool
  | [], _ => true
  | _ :: _, [] => false
  | a :: as, b :: bs => a == b && listStartsWith as bs

/-- Does `needle` occur as a contiguous run inside the list? -/
def listHasSub (needle : List Char) : List Char → Bool
  | [] => listStartsWith needle []
  | b :: bs => listStartsWith needle (b :: bs) || listHasSub needle bs

/-- Go `strings.Contains hay needle`. -/
def stringContains (hay needle : String) : Bool :=
  listHasSub needle.data hay.data

/-- The ready marker scanned for in the k3s container logs. -/
def runningMarker : String := "Running kubelet"

/-- `startTimeout` from the source: 300 seconds. -/
def startTimeout : Nat := 300

/-- One poll's outcome is ready when the log read succeeded, something
was read (`nRead > 0`, i.e. the output is non-empty) and the output
contains the ready marker. -/
def readyRead : Except String String → Bool
  | .ok out => 0 < goStringLen out && stringContains out runningMarker
  | .error _ => false

/-- The poll loop of `ClusterProvider.waitForStart`, structurally
recursive on the number of remaining iterations.  `t` is the elapsed
time in seconds; the Go loop errors as soon as the elapsed time
exceeds `startTimeout`, i.e. at iteration 301, so the loop is entered
with `remaining = startTimeout + 1` iterations available. -/
def waitForStartAux (logs : Nat → Except String String) :
    Nat → Nat → Except String Unit
  | 0, _ => .error "cluster creation exceeded specified timeout"
  | remaining + 1, t =>
    match logs t with
    | .error e => .error ("unable to get docker logs: " ++ e)
    | .ok output =>
      if 0 < goStringLen output && stringContains output runningMarker then
        .ok ()
      else
        waitForStartAux logs remaining (t + 1)

/-- `ClusterProvider.waitForStart`: polls the container logs once per
second, succeeds when the ready marker appears, errors with the
timeout message once elapsed time exceeds `startTimeout`. -/
def waitForStart (logs : Nat → Except String String) : Except String Unit :=
  waitForStartAux logs (startTimeout + 1) 0

/-- The collaborator-call results consumed by `createK3s` from the
`waitForStart` call onward. -/
structure K3sSteps where
  logs : Nat → Except String String
  copyKubeConfig : Except String Unit
  createLocalKubeConfig : Except String Unit
  setKubeClientConfig : Except String Unit
  healthCheckDefaultPods : Except String Unit
  deployConnector : Except String Unit

/-- The tail of `ClusterProvider.createK3s`: wait for the container to
start, copy and rewrite the kubeconfig, point the Kubernetes client at
it, health-check the default pods (a bounded wait using
`startTimeout`), then deploy the connector.  (The optional
`CopyImages` import block, which only runs when images are configured,
is omitted.)  A health-check failure yields the timeout Create
error. -/
def createK3sFromStart (s : K3sSteps) : Except String Unit :=
  match waitForStart s.logs with
  | .error e => .error e
  | .ok _ =>
  match s.copyKubeConfig with
  | .error e => .error ("unable to copy Kubernetes config: " ++ e)
  | .ok _ =>
  match s.createLocalKubeConfig with
  | .error e => .error ("unable to create local Kubernetes config: " ++ e)
  | .ok _ =>
  match s.setKubeClientConfig with
  | .error e => .error e
  | .ok _ =>
  match s.healthCheckDefaultPods with
  | .error e => .error ("timeout waiting for Kubernetes default pods: " ++ e)
  | .ok _ => s.deployConnector

/-! ## The resource dependency graph engine

Modelled from the spec: the source of the graph engine, diff engine,
scheduler and state store is not part of the available source tree
(only its callers are), so the definitions in this section follow the
specification text (§3–§5 of the design document). -/

/-- Modelled from the spec: a resource graph — node set = resource IDs,
edge set = the `DependsOn` relation, directed from dependent to
dependency. -/
structure Graph where
  nodes : List String
  dependsOn : String → List String

/-- The spec's graph invariant: resource IDs are unique within a graph
and `DependsOn` edges reference only IDs present in the same graph. -/
def GraphWF (g : Graph) : Prop :=
  g.nodes.Nodup ∧ ∀ n ∈ g.nodes, ∀ d ∈ g.dependsOn n, d ∈ g.nodes

/-- A non-empty dependency path: `DependsPath g a b` holds when `b` is
reachable from `a` by following one or more `DependsOn` edges. -/
inductive DependsPath (g : Graph) : String → String → Prop
  | single {a b : String} : b ∈ g.dependsOn a → DependsPath g a b
  | step {a b c : String} : b ∈ g.dependsOn a → DependsPath g b c → DependsPath g a c

/-- A cyclic graph: some node lies on a non-empty dependency cycle. -/
def HasCycle (g : Graph) : Prop := ∃ n ∈ g.nodes, DependsPath g n n

/-- Modelled from the spec: `GraphError` — fatal, no execution begins.
The cyclic-dependency error names the set of nodes among which the
cycle lies. -/
inductive GraphError where
  | cyclicDependency (stuck : List String)
deriving DecidableEq, Repr

/-- A node is ready for the next level when all of its dependencies
have already been placed in earlier levels. -/
def readyNode (deps : String → List String) (done : List String) (n : String) : Bool :=
  (deps n).all fun d => done.contains d

/-- Modelled from the spec: the batched Kahn construction behind
`Levels()` — repeatedly remove the set of nodes whose dependencies all
lie in earlier levels; if no node can be removed while nodes remain, a
cycle has been detected and `Build` fails naming the unprocessable
nodes.  `fuel` bounds the number of rounds; `Build` supplies
`g.nodes.length`, which suffices because every successful round
removes at least one node. -/
def buildAux (deps : String → List String) :
    Nat → List String → List String → Except GraphError (List (List String))
  | 0, remaining, _ =>
    if remaining.isEmpty then .ok [] else .error (.cyclicDependency remaining)
  | fuel + 1, remaining, done =>
    if remaining.isEmpty then .ok []
    else
      let batch := remaining.filter (readyNode deps done)
      if batch.isEmpty then .error (.cyclicDependency remaining)
      else
        match buildAux deps fuel
            (remaining.filter fun n => !readyNode deps done n) (done ++ batch) with
        | .ok rest => .ok (batch :: rest)
        | .error e => .error e

/-- Modelled from the spec: `Build(resources)` — constructs the levels,
failing with a cyclic-dependency `GraphError` when a cycle is
detected. -/
def Build (g : Graph) : Except GraphError (List (List String)) :=
  buildAux g.dependsOn g.nodes.length g.nodes []

/-- Modelled from the spec: `Levels()` — the ordered sequence of
disjoint batches computed by `Build`, when the graph is acyclic. -/
def Levels (g : Graph) : Option (List (List String)) :=
  match Build g with
  | .ok lvls => some lvls
  | .error _ => none

/-- Modelled from the spec: reverse `Levels()`, the destroy order
(dependents destroyed before their dependencies). -/
def DestroyLevels (g : Graph) : Option (List (List String)) :=
  match Build g with
  | .ok lvls => some lvls.reverse
  | .error _ => none

/-! ### Diff engine and scheduler -/

/-- Modelled from the spec: the per-resource status, per run. -/
inductive Status where
  | pending
  | created
  | failed
  | blocked
deriving DecidableEq, Repr

/-- Modelled from the spec: a lifecycle call issued to a Provider. -/
inductive OpCall where
  | create (id : String)
  | destroy (id : String)
  | refresh (id : String)
deriving DecidableEq, Repr

/-- Modelled from the spec: the per-resource outcomes of the Provider
calls a run may issue, plus the Provider-level `Changed()` signal. -/
structure ProviderBehavior where
  createOk : String → Bool
  destroyOk : String → Bool
  refreshOk : String → Bool
  changed : String → Bool

/-- Modelled from the spec: the decision the Diff Engine takes for one
resource — no StateEntry means create; with a StateEntry, a differing
config hash or a true Provider `Changed()` (combined with logical OR)
means full replacement; otherwise refresh only. -/
inductive Decision where
  | createNew
  | replace
  | refreshOnly
deriving DecidableEq, Repr

/-- Modelled from the spec: the Diff Engine's decision rule. -/
def diffDecision (entry : Option Nat) (declaredHash : Nat)
    (providerChanged : Bool) : Decision :=
  match entry with
  | none => .createNew
  | some h => if h != declaredHash || providerChanged then .replace else .refreshOnly

/-- Modelled from the spec: `Remove(id)` of the state store — remove
the StateEntry of `id` (at most one exists). -/
def stateRemove (entries : List (String × Nat)) (id : String) : List (String × Nat) :=
  entries.filter fun e => !(e.1 == id)

/-- Modelled from the spec: `Upsert(entry)` of the state store — the
StateEntry of `id` with the given config hash. -/
def stateUpsert (entries : List (String × Nat)) (id : String) (h : Nat) :
    List (String × Nat) :=
  (id, h) :: stateRemove entries id

/-- Modelled from the spec: the scheduler's running state —
per-resource status, the state-store entries (resource ID ↦ stored
config hash) and the Provider calls issued so far, in order. -/
structure RunState where
  status : String → Status
  entries : List (String × Nat)
  calls : List OpCall

/-- Modelled from the spec: a resource is blocked when some direct
dependency ended the run failed or blocked. -/
def blockedByDeps (deps : String → List String) (st : String → Status) (n : String) : Bool :=
  (deps n).any fun d => st d == Status.failed || st d == Status.blocked

/-- Modelled from the spec: processing of a single resource by the
scheduler.  A resource with a failed or blocked dependency is marked
blocked and receives no Provider call and no StateEntry; otherwise the
Diff Engine decides between `Create`, `Destroy`+`Create` and
`Refresh`.  On success a StateEntry with the current config hash is
upserted and the status becomes created; on failure the status becomes
failed and no StateEntry is written. -/
def applyResource (beh : ProviderBehavior) (deps : String → List String)
    (hash : String → Nat) (rs : RunState) (n : String) : RunState :=
  if blockedByDeps deps rs.status n then
    { rs with status := fun m => if m = n then .blocked else rs.status m }
  else
    match diffDecision (rs.entries.lookup n) (hash n) (beh.changed n) with
    | .createNew =>
      if beh.createOk n then
        { status := fun m => if m = n then .created else rs.status m,
          entries := stateUpsert rs.entries n (hash n),
          calls := rs.calls ++ [.create n] }
      else
        { rs with
          status := fun m => if m = n then .failed else rs.status m,
          calls := rs.calls ++ [.create n] }
    | .replace =>
      if beh.destroyOk n then
        if beh.createOk n then
          { status := fun m => if m = n then .created else rs.status m,
            entries := stateUpsert rs.entries n (hash n),
            calls := rs.calls ++ [.destroy n, .create n] }
        else
          { rs with
            status := fun m => if m = n then .failed else rs.status m,
            calls := rs.calls ++ [.destroy n, .create n] }
      else
        { rs with
          status := fun m => if m = n then .failed else rs.status m,
          calls := rs.calls ++ [.destroy n] }
    | .refreshOnly =>
      if beh.refreshOk n then
        { status := fun m => if m = n then .created else rs.status m,
          entries := stateUpsert rs.entries n (hash n),
          calls := rs.calls ++ [.refresh n] }
      else
        { rs with
          status := fun m => if m = n then .failed else rs.status m,
          calls := rs.calls ++ [.refresh n] }

/-- Modelled from the spec: the scheduler's state at the start of a
run — every resource pending, the prior state loaded, no calls
issued. -/
def initRunState (prior : List (String × Nat)) : RunState :=
  { status := fun _ => .pending, entries := prior, calls := [] }

/-- Modelled from the spec: processing of a whole schedule (the level
sequence flattened in order) against the prior state. -/
def applySchedule (beh : ProviderBehavior) (deps : String → List String)
    (hash : String → Nat) (prior : List (String × Nat)) (sched : List String) : RunState :=
  sched.foldl (applyResource beh deps hash) (initRunState prior)

/-- Modelled from the spec: `Apply(graph, priorState)` — build the
levels (no execution begins on a `GraphError`) and process every level
in order. -/
def ApplyRun (g : Graph) (beh : ProviderBehavior) (hash : String → Nat)
    (prior : List (String × Nat)) : Except GraphError RunState :=
  match Build g with
  | .error e => .error e
  | .ok lvls => .ok (applySchedule beh g.dependsOn hash prior lvls.flatten)

/-- Modelled from the spec: the best-effort destroy walk — every
resource of the (reversed) schedule that has a StateEntry receives a
`Destroy()` call; a failing destroy is recorded and does not stop the
walk. -/
def destroyWalk (hasEntry : String → Bool)
    (destroyResult : String → Except String Unit) (sched : List String) :
    List (String × Except String Unit) :=
  sched.filterMap fun n =>
    if hasEntry n then some (n, destroyResult n) else none

/-! ### State store -/

/-- Modelled from the spec: the file-system locations `Save` touches —
the state file and the temporary serialization target. -/
structure StateFS where
  stateFile : Option String
  tmpFile : Option String
deriving DecidableEq, Repr

/-- Modelled from the spec: the sequence of file-system states a run of
`Save(state)` passes through — the serialized bytes are written to the
temporary location (observable at any prefix), then the temporary file
is renamed into place in one atomic step. -/
def saveTrace (fs : StateFS) (serialized : String) : List StateFS :=
  ((List.range (serialized.data.length + 1)).map fun k =>
    { fs with tmpFile := some (String.mk (serialized.data.take k)) })
  ++ [{ stateFile := some serialized, tmpFile := none }]

/-! ### Specification predicates used by the theorems -/

/-- A poll that reads the logs successfully but does not see the ready
marker yet. -/
def notReadyOk (r : Except String String) : Prop :=
  ∃ out, r = .ok out ∧ (0 < goStringLen out && stringContains out runningMarker) = false

/-- The level invariant of the spec, relative to the set `done` of
nodes already placed: every dependency of a member of a level lies in
`done`, and later levels satisfy the same with the level added to
`done`. -/
def LevelsOK (deps : String → List String) : List String → List (List String) → Prop
  | _, [] => True
  | done, batch :: rest =>
    (∀ n ∈ batch, ∀ d ∈ deps n, d ∈ done) ∧ LevelsOK deps (done ++ batch) rest

/-- A list is topologically ordered relative to already-`seen` nodes:
each element's dependencies all lie among the nodes seen before it. -/
def TopoFrom (deps : String → List String) : List String → List String → Prop
  | _, [] => True
  | seen, n :: rest => (∀ d ∈ deps n, d ∈ seen) ∧ TopoFrom deps (seen ++ [n]) rest

/-- The failure-containment invariant of a partially executed apply
run in which exactly resource `X`'s Create fails: unprocessed
resources are pending with their prior state untouched; a processed
resource is failed (X itself), blocked (a transitive dependent of X,
StateEntry unwritten), or created with its StateEntry upserted. -/
def ContainmentInv (g : Graph) (X : String) (hash : String → Nat)
    (prior : List (String × Nat)) (processed : List String) (rs : RunState) : Prop :=
  (∀ m, m ∉ processed → rs.status m = .pending ∧ rs.entries.lookup m = prior.lookup m) ∧
  (∀ m ∈ processed,
    (m = X → rs.status m = Status.failed ∧ rs.entries.lookup m = prior.lookup m) ∧
    (DependsPath g m X → rs.status m = Status.blocked ∧ rs.entries.lookup m = prior.lookup m) ∧
    (m ≠ X → ¬ DependsPath g m X →
      rs.status m = Status.created ∧ rs.entries.lookup m = some (hash m)))

/-! ### Concrete graphs used to instantiate the theorems -/

/-- The spec's two-node example: `A` depends on `B`. -/
def gAB : Graph :=
  { nodes := ["A", "B"],
    dependsOn := fun n => if n = "A" then ["B"] else [] }

/-- A two-node cyclic graph: `C` depends on `D` and `D` on `C`. -/
def gCD : Graph :=
  { nodes := ["C", "D"],
    dependsOn := fun n => if n = "C" then ["D"] else if n = "D" then ["C"] else [] }

/-- A three-node graph: `x` is the failing resource, `w` depends on
`x`, and `s` is an independent sibling. -/
def gXWS : Graph :=
  { nodes := ["x", "w", "s"],
    dependsOn := fun n => if n = "w" then ["x"] else [] }

/-! ## Theorems -/

/-- C10, counterexample to the claim as stated: the name made of 65
copies of `é` is 65 characters long (not longer than 128 characters)
and contains an invalid character, so by the claim it should yield
`NameContainsInvalidCharactersError`; the code's length check uses
Go's `len`, the UTF-8 byte length 130 > 128, so `ValidateName`
returns `NameExceedsMaxLengthError` instead. -/
theorem ValidateName_charLength_counterexample :
    (String.mk (List.replicate 65 'é')).data.length = 65 ∧
    (List.replicate 65 'é').all isNameChar = false ∧
    ValidateName (String.mk (List.replicate 65 'é')) =
      (false, some NameError.nameExceedsMaxLength) := by
  decide

/-- C10 (amended): `ValidateName` returns `(true, nil)` exactly for
non-empty names of at most 128 UTF-8 bytes consisting only of ASCII
letters, digits, `-` and `_` (such names have at most 128 characters);
it returns `NameExceedsMaxLengthError` exactly when the UTF-8 byte
length exceeds 128 (checked first, regardless of content), and
`NameContainsInvalidCharactersError` for every other input, including
the empty string. -/
theorem ValidateName_correct (name : String) :
    (ValidateName name = (true, none) ↔
      name.data ≠ [] ∧ goStringLen name ≤ 128 ∧ name.data.all isNameChar = true) ∧
    (ValidateName name = (false, some NameError.nameExceedsMaxLength) ↔
      128 < goStringLen name) ∧
    (ValidateName name = (false, some NameError.nameContainsInvalidCharacters) ↔
      goStringLen name ≤ 128 ∧ ¬(name.data ≠ [] ∧ name.data.all isNameChar = true)) ∧
    (ValidateName name = (true, none) → name.data.length ≤ 128) := by
  have hlen : name.data.length ≤ goStringLen name := by
    have h1 : ∀ x ∈ name.data.map Char.utf8Size, 1 ≤ x := by
      intro x hx
      rcases List.mem_map.mp hx with ⟨c, _, rfl⟩
      exact Char.utf8Size_pos c
    have := List.length_le_sum_of_one_le _ h1
    simpa [goStringLen] using this
  by_cases hb : 128 < goStringLen name
  · have hv : ValidateName name = (false, some NameError.nameExceedsMaxLength) := by
      simp [ValidateName, hb]
    refine ⟨?_, ?_, ?_, ?_⟩
    · rw [hv]; constructor
      · intro h; simp at h
      · intro h; exact absurd h.2.1 (not_le.mpr hb)
    · rw [hv]; simp [hb]
    · rw [hv]; constructor
      · intro h; simp at h
      · intro h; exact absurd h.1 (not_le.mpr hb)
    · rw [hv]; intro h; simp at h
  · push_neg at hb
    have hb' : ¬ (128 < goStringLen name) := not_lt.mpr hb
    by_cases hm : nameRegexMatch name = true
    · have hv : ValidateName name = (true, none) := by
        simp [ValidateName, hb', hm]
      obtain ⟨hne', hall⟩ : (!name.data.isEmpty) = true ∧ name.data.all isNameChar = true := by
        simpa [nameRegexMatch] using hm
      have hne : name.data ≠ [] := by simpa using hne'
      refine ⟨?_, ?_, ?_, ?_⟩
      · rw [hv]; simp [hne, hb, hall]
      · rw [hv]; constructor
        · intro h; simp at h
        · intro h; exact absurd h hb'
      · rw [hv]; constructor
        · intro h; simp at h
        · intro h; exact absurd ⟨hne, hall⟩ h.2
      · intro _; omega
    · have hnot : ¬(name.data ≠ [] ∧ name.data.all isNameChar = true) := by
        intro ⟨h1, h2⟩
        exact hm (by simp [nameRegexMatch, h2, h1])
      have hv : ValidateName name = (false, some NameError.nameContainsInvalidCharacters) := by
        simp [ValidateName, hb', hm]
      refine ⟨?_, ?_, ?_, ?_⟩
      · rw [hv]; constructor
        · intro h; simp at h
        · intro h; exact absurd ⟨h.1, h.2.2⟩ hnot
      · rw [hv]; constructor
        · intro h; simp at h
        · intro h; exact absurd hb (not_le.mpr h)
      · rw [hv]; constructor
        · intro _; exact ⟨hb, hnot⟩
        · intro _; rfl
      · rw [hv]; intro h; simp at h

/-- C10, witness: `ValidateName` accepts a short valid name and
rejects the empty string with the invalid-characters error. -/
theorem ValidateName_correct_witness :
    ValidateName "ab-c_9" = (true, none) ∧
    ValidateName "" = (false, some NameError.nameContainsInvalidCharacters) :=
  ⟨(ValidateName_correct "ab-c_9").1.mpr (by decide),
   (ValidateName_correct "").2.2.1.mpr (by decide)⟩

/-- C7: teardown is best-effort — `Ingress.Destroy` returns nil even
when `RemoveService` fails (the failure is logged), the certificate
`destroy` helper returns nil whatever the file removals return (each
failure is logged), `K8sConfig.Destroy` returns nil even when the
underlying `Delete` fails, and the destroy walk issues a `Destroy`
call to every resource holding a StateEntry no matter what the
destroys of other resources return. -/
theorem teardown_best_effort :
    (∀ r, (ingressDestroy r).2 = .ok ()) ∧
    (∀ e, (ingressDestroy (.error e)).1 = ["Unable to remove local ingress: " ++ e]) ∧
    (∀ a b c d, (certsDestroy a b c d).2 = .ok ()) ∧
    (∀ del, (k8sConfigDestroy (.ok ()) del).2 = .ok ()) ∧
    (∀ hasEntry res sched, ∀ n ∈ sched, hasEntry n = true →
      (n, res n) ∈ destroyWalk hasEntry res sched) := by
  refine ⟨?_, ?_, ?_, ?_, ?_⟩
  · intro r; cases r <;> rfl
  · intro e; rfl
  · intro a b c d; cases a <;> cases b <;> cases c <;> cases d <;> rfl
  · intro del; cases del <;> rfl
  · intro hasEntry res sched n hn he
    apply List.mem_filterMap.mpr
    exact ⟨n, hn, by simp [he]⟩

/-- C7, witness: with resource `a` stuck (its destroy fails) and `b`
holding a StateEntry, the walk still destroys `b`, and the three
providers return nil on failing removals. -/
theorem teardown_best_effort_witness :
    (ingressDestroy (.error "gone")).2 = .ok () ∧
    (certsDestroy (.error "k") (.error "p") (.error "s") (.error "c")).2 = .ok () ∧
    (k8sConfigDestroy (.ok ()) (.error "boom")).2 = .ok () ∧
    ("b", Except.ok ()) ∈
      destroyWalk (fun _ => true)
        (fun n => if n = "a" then .error "stuck" else .ok ()) ["a", "b"] :=
  ⟨teardown_best_effort.1 _,
   teardown_best_effort.2.2.1 _ _ _ _,
   teardown_best_effort.2.2.2.1 _,
   by
    have := teardown_best_effort.2.2.2.2 (fun _ => true)
      (fun n => if n = "a" then .error "stuck" else .ok ()) ["a", "b"] "b"
      (by decide) rfl
    simpa using this⟩

/-- C8: when `CertificateLeaf.Create` fails to read the CA certificate
file or the CA private key file, the returned error is wrapped
`retry.RetryableError` (classified retryable for the outer bounded
retry policy), and none of the certificate output fields are set. -/
theorem leafCreate_retryable (s : LeafSteps) :
    (∀ e, s.readCACert = .error e →
      CertificateLeafCreate s =
        (noLeafOutputs, .error (.retryable ("Unable to read root certificate: " ++ e)))) ∧
    (∀ e, s.readCACert = .ok () → s.readCAKey = .error e →
      CertificateLeafCreate s =
        (noLeafOutputs, .error (.retryable ("Unable to read root key: " ++ e)))) := by
  constructor
  · intro e he
    unfold CertificateLeafCreate
    rw [he]
  · intro e hc hk
    unfold CertificateLeafCreate
    rw [hc, hk]

/-- C8, witness: a concrete run whose CA-certificate read fails yields
the retryable-wrapped error with no outputs set. -/
theorem leafCreate_retryable_witness :
    CertificateLeafCreate
      { readCACert := .error "no such file",
        readCAKey := .ok (), generateKeyPair := .ok ("priv", "pub"),
        generateLeaf := .ok "leaf", pemToOpenSSH := .ok "ssh",
        writeCert := .ok (), writeKey := .ok (), writePub := .ok (),
        writeSSH := .ok () } =
      (noLeafOutputs, .error (.retryable "Unable to read root certificate: no such file")) :=
  (leafCreate_retryable _).1 "no such file" rfl

/-- If every poll in the window reads logs successfully without seeing
the ready marker, the wait loop runs out of its iteration budget and
returns the timeout error. -/
theorem waitForStartAux_timeout (logs : Nat → Except String String) :
    ∀ remaining t, (∀ u, t ≤ u → u < t + remaining → notReadyOk (logs u)) →
      waitForStartAux logs remaining t =
        .error "cluster creation exceeded specified timeout" := by
  intro remaining
  induction remaining with
  | zero => intro t _; rfl
  | succ r ih =>
    intro t h
    obtain ⟨out, hout, hcond⟩ := h t (Nat.le_refl t) (by omega)
    show waitForStartAux logs (r + 1) t = _
    rw [waitForStartAux, hout]
    simp only [hcond, if_false]
    exact ih (t + 1) fun u hu1 hu2 => h u (by omega) (by omega)

/-- If the ready marker appears at some poll inside the window and all
earlier polls read successfully without it, the wait loop succeeds. -/
theorem waitForStartAux_ready (logs : Nat → Except String String) :
    ∀ remaining t t0, t ≤ t0 → t0 < t + remaining →
      (0 < goStringLen ((logs t0).toOption.getD "") &&
        stringContains ((logs t0).toOption.getD "") runningMarker) = true →
      (∃ out0, logs t0 = .ok out0) →
      (∀ u, t ≤ u → u < t0 → notReadyOk (logs u)) →
      waitForStartAux logs remaining t = .ok () := by
  intro remaining
  induction remaining with
  | zero => intro t t0 h1 h2 _ _ _; omega
  | succ r ih =>
    intro t t0 h1 h2 hready hok h
    obtain ⟨out0, hout0⟩ := hok
    by_cases he : t = t0
    · subst he
      rw [waitForStartAux, hout0]
      rw [hout0] at hready
      simp only [Except.toOption, Option.getD] at hready
      simp only [hready, if_true]
    · have hlt : t < t0 := by omega
      obtain ⟨out, hout, hcond⟩ := h t (Nat.le_refl t) hlt
      rw [waitForStartAux, hout]
      simp only [hcond, if_false]
      exact ih (t + 1) t0 (by omega) (by omega) hready ⟨out0, hout0⟩
        fun u hu1 hu2 => h u (by omega) hu2

/-- C9: the cluster readiness wait is bounded. `waitForStart` returns
on every input: it succeeds as soon as a poll inside the 300-second
window reads the ready marker; if no poll up to `startTimeout` seconds
sees the marker it returns the cluster-creation-timeout error; and
`createK3s` turns a failed default-pod health check (itself bounded by
`startTimeout`) into a timeout Create error instead of waiting
forever. -/
theorem waitForStart_bounded :
    (∀ logs : Nat → Except String String,
      waitForStart logs = .ok () ∨ ∃ e, waitForStart logs = .error e) ∧
    (∀ logs : Nat → Except String String,
      (∀ u, u ≤ startTimeout → notReadyOk (logs u)) →
      waitForStart logs = .error "cluster creation exceeded specified timeout") ∧
    (∀ (logs : Nat → Except String String) (t0 : Nat) (out0 : String),
      t0 ≤ startTimeout → logs t0 = .ok out0 →
      (0 < goStringLen out0 && stringContains out0 runningMarker) = true →
      (∀ u, u < t0 → notReadyOk (logs u)) →
      waitForStart logs = .ok ()) ∧
    (∀ (s : K3sSteps) (e : String),
      waitForStart s.logs = .ok () → s.copyKubeConfig = .ok () →
      s.createLocalKubeConfig = .ok () → s.setKubeClientConfig = .ok () →
      s.healthCheckDefaultPods = .error e →
      createK3sFromStart s = .error ("timeout waiting for Kubernetes default pods: " ++ e)) := by
  refine ⟨?_, ?_, ?_, ?_⟩
  · intro logs
    cases hw : waitForStart logs with
    | ok u => left; cases u; rfl
    | error e => right; exact ⟨e, rfl⟩
  · intro logs h
    exact waitForStartAux_timeout logs (startTimeout + 1) 0
      fun u hu1 hu2 => h u (by omega)
  · intro logs t0 out0 ht0 hout0 hready h
    refine waitForStartAux_ready logs (startTimeout + 1) 0 t0 (Nat.zero_le t0)
      (by omega) ?_ ⟨out0, hout0⟩ fun u _ hu2 => h u hu2
    rw [hout0]
    simpa using hready
  · intro s e hw hc hl hs hh
    unfold createK3sFromStart
    rw [hw, hc, hl, hs, hh]

/-- C9, witness: logs that never show the marker time out after the
300-second budget; logs showing `Running kubelet` immediately
succeed; a failing health check yields the timeout Create error. -/
theorem waitForStart_bounded_witness :
    waitForStart (fun _ => .ok "starting") =
      .error "cluster creation exceeded specified timeout" ∧
    waitForStart (fun _ => .ok "level=info msg=か Running kubelet extra") = .ok () ∧
    createK3sFromStart
      { logs := fun _ => .ok "Running kubelet",
        copyKubeConfig := .ok (), createLocalKubeConfig := .ok (),
        setKubeClientConfig := .ok (), healthCheckDefaultPods := .error "pods not ready",
        deployConnector := .ok () } =
      .error "timeout waiting for Kubernetes default pods: pods not ready" := by
  refine ⟨?_, ?_, ?_⟩
  · exact waitForStart_bounded.2.1 _ fun u _ => ⟨"starting", rfl, by decide⟩
  · exact waitForStart_bounded.2.2.1 _ 0 "level=info msg=か Running kubelet extra"
      (by decide) rfl (by decide) (fun u hu => absurd hu (Nat.not_lt_zero u))
  · exact waitForStart_bounded.2.2.2 _ "pods not ready"
      (waitForStart_bounded.2.2.1 _ 0 "Running kubelet" (by decide) rfl (by decide)
        (fun u hu => absurd hu (Nat.not_lt_zero u)))
      rfl rfl rfl rfl

/-- C5: `Save` is atomic — at every intermediate point of the save
trace the state file holds either the complete previous content or
the complete new content (the serialization goes to the temporary
location and is renamed into place in one step), and the trace ends
with the new content installed. -/
theorem save_atomic (fs : StateFS) (new : String) :
    (∀ s ∈ saveTrace fs new, s.stateFile = fs.stateFile ∨ s.stateFile = some new) ∧
    (saveTrace fs new).getLast? = some { stateFile := some new, tmpFile := none } ∧
    saveTrace fs new ≠ [] := by
  refine ⟨?_, ?_, ?_⟩
  · intro s hs
    rcases List.mem_append.mp hs with h | h
    · left
      rcases List.mem_map.mp h with ⟨k, _, rfl⟩
      rfl
    · right
      rcases List.mem_singleton.mp h with rfl
      rfl
  · exact List.getLast?_concat _
  · intro h
    have := congrArg List.length h
    simp [saveTrace] at this

/-- C5, witness: saving `"ab"` over a state file holding `"old"` — the
mid-write point (temporary file holding `"a"`) leaves the state file
with the complete old content, and the trace ends with `"ab"`
installed. -/
theorem save_atomic_witness :
    ((⟨some "old", some "a"⟩ : StateFS).stateFile =
        (⟨some "old", none⟩ : StateFS).stateFile ∨
      (⟨some "old", some "a"⟩ : StateFS).stateFile = some "ab") ∧
    (saveTrace ⟨some "old", none⟩ "ab").getLast? =
      some { stateFile := some "ab", tmpFile := none } :=
  ⟨(save_atomic ⟨some "old", none⟩ "ab").1 ⟨some "old", some "a"⟩ (by decide),
   (save_atomic ⟨some "old", none⟩ "ab").2.1⟩

/-! ### Graph engine lemmas -/

theorem readyNode_eq_true_iff (deps : String → List String) (done : List String) (n : String) :
    readyNode deps done n = true ↔ ∀ d ∈ deps n, d ∈ done := by
  simp [readyNode, List.all_eq_true]

theorem filter_not_length_lt (p : String → Bool) (l : List String)
    (h : l.filter p ≠ []) : (l.filter fun x => !p x).length < l.length := by
  have hperm := List.filter_append_perm p l
  have hlen : (l.filter p).length + (l.filter fun x => !p x).length = l.length := by
    have := hperm.length_eq
    simpa [List.length_append] using this
  have hpos : 0 < (l.filter p).length := List.length_pos.mpr h
  omega

theorem buildAux_levelsOK (deps : String → List String) :
    ∀ fuel remaining done lvls,
      buildAux deps fuel remaining done = .ok lvls → LevelsOK deps done lvls := by
  intro fuel
  induction fuel with
  | zero =>
    intro remaining done lvls h
    rw [buildAux] at h
    by_cases he : remaining.isEmpty
    · simp [he] at h
      subst h; trivial
    · simp [he] at h
  | succ f ih =>
    intro remaining done lvls h
    rw [buildAux] at h
    by_cases he : remaining.isEmpty
    · simp [he] at h
      subst h; trivial
    · simp only [he, if_false] at h
      by_cases hb : (remaining.filter (readyNode deps done)).isEmpty
      · simp [hb] at h
      · simp only [hb, if_false] at h
        cases hrec : buildAux deps f
            (remaining.filter fun n => !readyNode deps done n)
            (done ++ remaining.filter (readyNode deps done)) with
        | error e => rw [hrec] at h; simp at h
        | ok rest =>
          rw [hrec] at h
          simp at h
          subst h
          refine ⟨?_, ih _ _ _ hrec⟩
          intro n hn d hd
          have hr : readyNode deps done n = true := (List.mem_filter.mp hn).2
          exact (readyNode_eq_true_iff deps done n).mp hr d hd

theorem buildAux_perm (deps : String → List String) :
    ∀ fuel remaining done lvls,
      buildAux deps fuel remaining done = .ok lvls →
      List.Perm lvls.flatten remaining := by
  intro fuel
  induction fuel with
  | zero =>
    intro remaining done lvls h
    rw [buildAux] at h
    by_cases he : remaining.isEmpty
    · simp [he] at h
      subst h
      simp [List.isEmpty_iff.mp he]
    · simp [he] at h
  | succ f ih =>
    intro remaining done lvls h
    rw [buildAux] at h
    by_cases he : remaining.isEmpty
    · simp [he] at h
      subst h
      simp [List.isEmpty_iff.mp he]
    · simp only [he, if_false] at h
      by_cases hb : (remaining.filter (readyNode deps done)).isEmpty
      · simp [hb] at h
      · simp only [hb, if_false] at h
        cases hrec : buildAux deps f
            (remaining.filter fun n => !readyNode deps done n)
            (done ++ remaining.filter (readyNode deps done)) with
        | error e => rw [hrec] at h; simp at h
        | ok rest =>
          rw [hrec] at h
          simp at h
          subst h
          have hrest := ih _ _ _ hrec
          have h1 : List.Perm
              ((remaining.filter (readyNode deps done)) :: rest).flatten
              (remaining.filter (readyNode deps done) ++
                (remaining.filter fun n => !readyNode deps done n)) := by
            simpa using List.Perm.append_left (remaining.filter (readyNode deps done)) hrest
          exact h1.trans (List.filter_append_perm _ remaining)

/-- In a finite set of nodes each of which has a dependency inside the
set, some node lies on a dependency cycle. -/
theorem exists_cycle_of_stuck (g : Graph) (S : List String) (hne : S ≠ [])
    (hsucc : ∀ n ∈ S, ∃ d ∈ g.dependsOn n, d ∈ S) :
    ∃ n ∈ S, DependsPath g n n := by
  classical
  set f : String → String :=
    fun n => ((g.dependsOn n).filter (fun d => decide (d ∈ S))).headD n with hf
  have hstep : ∀ n ∈ S, f n ∈ g.dependsOn n ∧ f n ∈ S := by
    intro n hn
    obtain ⟨d, hd1, hd2⟩ := hsucc n hn
    have hfne : (g.dependsOn n).filter (fun x => decide (x ∈ S)) ≠ [] := by
      intro hemp
      have hdm : d ∈ (g.dependsOn n).filter (fun x => decide (x ∈ S)) := by
        simp [List.mem_filter, hd1, hd2]
      rw [hemp] at hdm
      simp at hdm
    have hmem : f n ∈ (g.dependsOn n).filter (fun x => decide (x ∈ S)) := by
      rw [hf]
      cases hc : (g.dependsOn n).filter (fun x => decide (x ∈ S)) with
      | nil => exact absurd hc hfne
      | cons a as => simp [hc, List.headD]
    have hm := List.mem_filter.mp hmem
    exact ⟨hm.1, by simpa using hm.2⟩
  obtain ⟨n0, hn0⟩ : ∃ x, x ∈ S := by
    cases S with
    | nil => simp at hne
    | cons a as => exact ⟨a, List.mem_cons_self a as⟩
  have hiter : ∀ k, f^[k] n0 ∈ S := by
    intro k
    induction k with
    | zero => simpa using hn0
    | succ k ih =>
      rw [Function.iterate_succ_apply']
      exact (hstep _ ih).2
  have hpath : ∀ k, ∀ x ∈ S, DependsPath g x (f^[k + 1] x) := by
    intro k
    induction k with
    | zero =>
      intro x hx
      simpa using DependsPath.single (hstep x hx).1
    | succ k ih =>
      intro x hx
      have hfx := hstep x hx
      have htail : DependsPath g (f x) (f^[k + 1] (f x)) := ih (f x) hfx.2
      rw [Function.iterate_succ_apply]
      exact DependsPath.step hfx.1 htail
  have main : ∀ a b : Nat, a < b → f^[a] n0 = f^[b] n0 → ∃ n ∈ S, DependsPath g n n := by
    intro a b hab heq
    obtain ⟨k, rfl⟩ : ∃ k, b = (k + 1) + a := ⟨b - a - 1, by omega⟩
    have hsplit : f^[(k + 1) + a] n0 = f^[k + 1] (f^[a] n0) :=
      Function.iterate_add_apply f (k + 1) a n0
    refine ⟨f^[a] n0, hiter a, ?_⟩
    have hp := hpath k (f^[a] n0) (hiter a)
    rw [← hsplit, ← heq] at hp
    exact hp
  have hcard : S.toFinset.card < (Finset.range (S.length + 1)).card := by
    have hle := S.toFinset_card_le
    simp only [Finset.card_range]
    omega
  obtain ⟨i, _, j, _, hij, heq⟩ :=
    Finset.exists_ne_map_eq_of_card_lt_of_maps_to hcard
      (fun k _ => List.mem_toFinset.mpr (hiter k))
  rcases Nat.lt_or_ge i j with h | h
  · exact main i j h heq
  · have hji : j < i := by omega
    exact main j i hji heq.symm

/-- When `buildAux` reports a cyclic-dependency error, the named stuck
set is non-empty, consists of input nodes, and contains a node on a
dependency cycle. -/
theorem buildAux_error_cycle (g : Graph) :
    ∀ fuel remaining done,
      remaining.length ≤ fuel →
      (∀ n ∈ remaining, ∀ d ∈ g.dependsOn n, d ∈ done ∨ d ∈ remaining) →
      ∀ stuck,
        buildAux g.dependsOn fuel remaining done = .error (.cyclicDependency stuck) →
        stuck ≠ [] ∧ (∀ x ∈ stuck, x ∈ remaining) ∧ ∃ n ∈ stuck, DependsPath g n n := by
  intro fuel
  induction fuel with
  | zero =>
    intro remaining done hlen _ stuck herr
    have hemp : remaining = [] := List.length_eq_zero.mp (Nat.le_zero.mp hlen)
    subst hemp
    rw [buildAux] at herr
    simp at herr
  | succ f ih =>
    intro remaining done hlen hclosure stuck herr
    rw [buildAux] at herr
    by_cases he : remaining.isEmpty
    · simp [he] at herr
    · simp only [he, if_false] at herr
      by_cases hb : (remaining.filter (readyNode g.dependsOn done)).isEmpty
      · simp only [hb, if_true] at herr
        have hstuck : remaining = stuck := by
          injection herr with herr'
          injection herr'
        subst hstuck
        have hner : remaining ≠ [] := by
          intro hcon
          rw [hcon] at he
          simp at he
        have hsucc : ∀ n ∈ remaining, ∃ d ∈ g.dependsOn n, d ∈ remaining := by
          intro n hn
          have hready : readyNode g.dependsOn done n = false := by
            by_contra hcon
            have : n ∈ remaining.filter (readyNode g.dependsOn done) := by
              refine List.mem_filter.mpr ⟨hn, ?_⟩
              exact Bool.of_not_eq_false hcon
            rw [List.isEmpty_iff.mp hb] at this
            simp at this
          have : ¬ ∀ d ∈ g.dependsOn n, d ∈ done := by
            intro hcon
            rw [(readyNode_eq_true_iff _ _ _).mpr hcon] at hready
            simp at hready
          push_neg at this
          obtain ⟨d, hd1, hd2⟩ := this
          rcases hclosure n hn d hd1 with h | h
          · exact absurd h hd2
          · exact ⟨d, hd1, h⟩
        obtain ⟨n, hn, hp⟩ := exists_cycle_of_stuck g remaining hner hsucc
        exact ⟨hner, fun x hx => hx, n, hn, hp⟩
      · simp only [hb, if_false] at herr
        cases hrec : buildAux g.dependsOn f
            (remaining.filter fun n => !readyNode g.dependsOn done n)
            (done ++ remaining.filter (readyNode g.dependsOn done)) with
        | ok rest => rw [hrec] at herr; simp at herr
        | error e =>
          rw [hrec] at herr
          simp at herr
          subst herr
          have hlen' : (remaining.filter fun n => !readyNode g.dependsOn done n).length ≤ f := by
            have hfl := filter_not_length_lt (readyNode g.dependsOn done) remaining
              (by intro hcon; rw [hcon] at hb; simp at hb)
            omega
          have hclosure' : ∀ n ∈ (remaining.filter fun n => !readyNode g.dependsOn done n),
              ∀ d ∈ g.dependsOn n,
              d ∈ done ++ remaining.filter (readyNode g.dependsOn done) ∨
              d ∈ (remaining.filter fun n => !readyNode g.dependsOn done n) := by
            intro n hn d hd
            have hnr := List.mem_of_mem_filter hn
            rcases hclosure n hnr d hd with h | h
            · exact Or.inl (List.mem_append_left _ h)
            · by_cases hrd : readyNode g.dependsOn done d = true
              · exact Or.inl (List.mem_append_right _ (List.mem_filter.mpr ⟨h, hrd⟩))
              · refine Or.inr (List.mem_filter.mpr ⟨h, ?_⟩)
                simp [Bool.eq_false_iff.mpr hrd]
          obtain ⟨h1, h2, h3⟩ := ih _ _ hlen' hclosure' _ hrec
          exact ⟨h1, fun x hx => List.mem_of_mem_filter (h2 x hx), h3⟩

/-- A dependency path starting in a dependency-closed set stays in it. -/
theorem path_stays (g : Graph) (S : List String)
    (hcl : ∀ x ∈ S, ∀ d ∈ g.dependsOn x, d ∈ S) :
    ∀ a b, DependsPath g a b → a ∈ S → b ∈ S := by
  intro a b hp
  induction hp with
  | single h => intro ha; exact hcl _ ha _ h
  | step h _ ih => intro ha; exact ih (hcl _ ha _ h)

/-- No element of a topologically ordered duplicate-free list lies on a
dependency cycle. -/
theorem topoFrom_no_cycle (g : Graph) :
    ∀ l seen, TopoFrom g.dependsOn seen l →
      (∀ x ∈ seen, ∀ d ∈ g.dependsOn x, d ∈ seen) →
      (∀ x ∈ seen, ¬ DependsPath g x x) →
      (seen ++ l).Nodup →
      ∀ x ∈ seen ++ l, ¬ DependsPath g x x := by
  intro l
  induction l with
  | nil =>
    intro seen _ _ hnc _ x hx
    rw [List.append_nil] at hx
    exact hnc x hx
  | cons n rest ih =>
    intro seen htf hcl hnc hnd x hx
    obtain ⟨hdeps, htf'⟩ := htf
    have hnmem : n ∉ seen := by
      intro hcon
      exact (List.disjoint_of_nodup_append hnd) hcon (List.mem_cons_self n rest)
    have hclosed' : ∀ y ∈ seen ++ [n], ∀ d ∈ g.dependsOn y, d ∈ seen ++ [n] := by
      intro y hy d hd
      rcases List.mem_append.mp hy with h | h
      · exact List.mem_append_left _ (hcl y h d hd)
      · rcases List.mem_singleton.mp h with rfl
        exact List.mem_append_left _ (hdeps d hd)
    have hnc' : ∀ y ∈ seen ++ [n], ¬ DependsPath g y y := by
      intro y hy
      rcases List.mem_append.mp hy with h | h
      · exact hnc y h
      · rcases List.mem_singleton.mp h with rfl
        intro hp
        cases hp with
        | single h => exact hnmem (hdeps _ h)
        | step h htail =>
          exact hnmem (path_stays g seen hcl _ _ htail (hdeps _ h))
    have hnd' : ((seen ++ [n]) ++ rest).Nodup := by
      simpa using hnd
    have hres := ih (seen ++ [n]) htf' hclosed' hnc' hnd'
    apply hres
    simpa using hx

/-- Prefixing a batch whose dependencies lie in `done` preserves
topological ordering. -/
theorem topoFrom_batch (deps : String → List String) :
    ∀ b done l, (∀ n ∈ b, ∀ d ∈ deps n, d ∈ done) →
      TopoFrom deps (done ++ b) l → TopoFrom deps done (b ++ l) := by
  intro b
  induction b with
  | nil =>
    intro done l _ h
    simpa using h
  | cons n b' ih =>
    intro done l hdeps htf
    refine ⟨fun d hd => hdeps n (List.mem_cons_self n b') d hd, ?_⟩
    apply ih (done ++ [n])
    · intro m hm d hd
      exact List.mem_append_left _ (hdeps m (List.mem_cons_of_mem n hm) d hd)
    · have heq : (done ++ [n]) ++ b' = done ++ n :: b' := by simp
      rw [heq]
      exact htf

/-- The flattening of a valid level sequence is topologically
ordered. -/
theorem levelsOK_topoFrom (deps : String → List String) :
    ∀ L done, LevelsOK deps done L → TopoFrom deps done L.flatten := by
  intro L
  induction L with
  | nil => intro done _; exact trivial
  | cons batch rest ih =>
    intro done hok
    obtain ⟨h1, h2⟩ := hok
    exact topoFrom_batch deps batch done rest.flatten h1 (ih (done ++ batch) h2)

/-- A successful `Build` certifies the graph acyclic. -/
theorem build_ok_no_cycle (g : Graph) (hwf : GraphWF g) (L : List (List String))
    (h : Build g = .ok L) : ¬ HasCycle g := by
  rintro ⟨n, hn, hp⟩
  have hlv := buildAux_levelsOK g.dependsOn _ _ _ _ h
  have hperm := buildAux_perm g.dependsOn _ _ _ _ h
  have htf : TopoFrom g.dependsOn [] L.flatten := levelsOK_topoFrom g.dependsOn L [] hlv
  have hnd : L.flatten.Nodup := hperm.nodup_iff.mpr hwf.1
  have hnc := topoFrom_no_cycle g L.flatten [] htf (by simp) (by simp) (by simpa using hnd)
  exact hnc n (by simpa using hperm.mem_iff.mpr hn) hp

/-- Indexed form of the level invariant: every dependency of a node in
level `k` lies in `done` or in a strictly earlier level. -/
theorem levelsOK_indexed (deps : String → List String) :
    ∀ L done, LevelsOK deps done L →
      ∀ k (hk : k < L.length), ∀ n ∈ L.get ⟨k, hk⟩, ∀ d ∈ deps n,
        d ∈ done ∨ ∃ j, ∃ (hj : j < L.length), j < k ∧ d ∈ L.get ⟨j, hj⟩ := by
  intro L
  induction L with
  | nil => intro done _ k hk; simp at hk
  | cons b rest ih =>
    intro done hok k hk n hn d hd
    obtain ⟨h1, h2⟩ := hok
    cases k with
    | zero => exact Or.inl (h1 n (by simpa using hn) d hd)
    | succ k' =>
      have hk' : k' < rest.length := by simpa using hk
      have hn' : n ∈ rest.get ⟨k', hk'⟩ := hn
      rcases ih (done ++ b) h2 k' hk' n hn' d hd with h | ⟨j, hj, hjk, hdj⟩
      · rcases List.mem_append.mp h with h | h
        · exact Or.inl h
        · exact Or.inr ⟨0, by simp, Nat.zero_lt_succ _, by simpa using h⟩
      · exact Or.inr ⟨j + 1, by simpa using hj, by omega, hdj⟩

/-- Nodes within one level have no dependency relationship. -/
theorem levelsOK_same_level (deps : String → List String) :
    ∀ L done, LevelsOK deps done L → (done ++ L.flatten).Nodup →
      ∀ k (hk : k < L.length), ∀ a ∈ L.get ⟨k, hk⟩, ∀ b ∈ L.get ⟨k, hk⟩,
        b ∉ deps a := by
  intro L
  induction L with
  | nil => intro done _ _ k hk; simp at hk
  | cons batch rest ih =>
    intro done hok hnd k hk a ha b hb hdep
    obtain ⟨h1, h2⟩ := hok
    cases k with
    | zero =>
      have hbdone : b ∈ done := h1 a (by simpa using ha) b hdep
      have hbbatch : b ∈ batch ++ rest.flatten := by
        apply List.mem_append_left
        simpa using hb
      exact (List.disjoint_of_nodup_append (by simpa using hnd)) hbdone hbbatch
    | succ k' =>
      have hk' : k' < rest.length := by simpa using hk
      have hnd' : ((done ++ batch) ++ rest.flatten).Nodup := by simpa using hnd
      exact ih (done ++ batch) h2 hnd' k' hk' a ha b hb hdep

/-- In a duplicate-free level sequence, a node belongs to at most one
level. -/
theorem flatten_nodup_unique_batch :
    ∀ L : List (List String), L.flatten.Nodup →
      ∀ i j (hi : i < L.length) (hj : j < L.length) (d : String),
        d ∈ L.get ⟨i, hi⟩ → d ∈ L.get ⟨j, hj⟩ → i = j := by
  intro L
  induction L with
  | nil => intro _ i j hi; simp at hi
  | cons b rest ih =>
    intro hnd i j hi hj d hdi hdj
    have hdisj := List.disjoint_of_nodup_append (by simpa using hnd)
    have hndr : rest.flatten.Nodup := (List.nodup_append.mp (by simpa using hnd)).2.1
    cases i with
    | zero =>
      cases j with
      | zero => rfl
      | succ j' =>
        have hj' : j' < rest.length := by simpa using hj
        have : d ∈ rest.flatten :=
          List.mem_flatten.mpr ⟨rest.get ⟨j', hj'⟩, List.get_mem rest j' hj', hdj⟩
        exact absurd ((hdisj (by simpa using hdi)) this) (fun h => h)
    | succ i' =>
      cases j with
      | zero =>
        have hi' : i' < rest.length := by simpa using hi
        have : d ∈ rest.flatten :=
          List.mem_flatten.mpr ⟨rest.get ⟨i', hi'⟩, List.get_mem rest i' hi', hdi⟩
        exact absurd ((hdisj (by simpa using hdj)) this) (fun h => h)
      | succ j' =>
        have hi' : i' < rest.length := by simpa using hi
        have hj' : j' < rest.length := by simpa using hj
        have := ih hndr i' j' hi' hj' d hdi hdj
        omega

/-- C1: for every well-formed acyclic resource graph, `Levels()`
returns an ordered sequence of disjoint batches covering exactly the
nodes, in which every dependency of a node placed in level `k` lies in
some earlier level `j < k` and nodes within one level have no
dependency relationship; for every cyclic input, `Build` fails with a
cyclic-dependency `GraphError` naming a non-empty stuck node set that
contains a cycle, and no execution begins (`ApplyRun` returns that
same error without processing any resource). -/
theorem graph_build_levels_correct (g : Graph) (hwf : GraphWF g) :
    (¬ HasCycle g → ∃ L, Levels g = some L ∧ Build g = .ok L ∧
      List.Perm L.flatten g.nodes ∧ L.flatten.Nodup ∧
      (∀ k (hk : k < L.length), ∀ n ∈ L.get ⟨k, hk⟩, ∀ d ∈ g.dependsOn n,
        ∃ j, ∃ (hj : j < L.length), j < k ∧ d ∈ L.get ⟨j, hj⟩) ∧
      (∀ k (hk : k < L.length), ∀ a ∈ L.get ⟨k, hk⟩, ∀ b ∈ L.get ⟨k, hk⟩,
        b ∉ g.dependsOn a)) ∧
    (HasCycle g → ∃ stuck, Build g = .error (.cyclicDependency stuck) ∧
      stuck ≠ [] ∧ (∀ x ∈ stuck, x ∈ g.nodes) ∧ (∃ n ∈ stuck, DependsPath g n n) ∧
      ∀ beh hash prior, ApplyRun g beh hash prior = .error (.cyclicDependency stuck)) := by
  have hclosure0 : ∀ n ∈ g.nodes, ∀ d ∈ g.dependsOn n, d ∈ ([] : List String) ∨ d ∈ g.nodes :=
    fun n hn d hd => Or.inr (hwf.2 n hn d hd)
  constructor
  · intro hnc
    cases hB : Build g with
    | ok L =>
      have hlv := buildAux_levelsOK g.dependsOn _ _ _ _ hB
      have hperm := buildAux_perm g.dependsOn _ _ _ _ hB
      have hnd : L.flatten.Nodup := hperm.nodup_iff.mpr hwf.1
      refine ⟨L, by simp [Levels, hB], rfl, hperm, hnd, ?_, ?_⟩
      · intro k hk n hn d hd
        rcases levelsOK_indexed g.dependsOn L [] hlv k hk n hn d hd with h | h
        · simp at h
        · exact h
      · intro k hk a ha b hb
        exact levelsOK_same_level g.dependsOn L [] hlv (by simpa using hnd) k hk a ha b hb
    | error e =>
      cases e with
      | cyclicDependency stuck =>
        obtain ⟨_, hsub, n, hn, hp⟩ :=
          buildAux_error_cycle g _ _ _ (Nat.le_refl _) hclosure0 stuck hB
        exact absurd ⟨n, hsub n hn, hp⟩ hnc
  · intro hc
    cases hB : Build g with
    | ok L => exact absurd hc (build_ok_no_cycle g hwf L hB)
    | error e =>
      cases e with
      | cyclicDependency stuck =>
        obtain ⟨h1, h2, h3⟩ :=
          buildAux_error_cycle g _ _ _ (Nat.le_refl _) hclosure0 stuck hB
        refine ⟨stuck, rfl, h1, fun x hx => h2 x hx, h3, ?_⟩
        intro beh hash prior
        simp [ApplyRun, hB]

/-- C1, witness: the acyclic two-node graph `A → B` yields levels
`[[B], [A]]`; the cyclic graph `C ⇄ D` makes `Build` fail naming a
stuck set that carries a cycle, before any execution. -/
theorem graph_build_levels_correct_witness :
    (∃ L, Levels gAB = some L ∧ Build gAB = .ok L ∧
      List.Perm L.flatten gAB.nodes ∧ L.flatten.Nodup ∧
      (∀ k (hk : k < L.length), ∀ n ∈ L.get ⟨k, hk⟩, ∀ d ∈ gAB.dependsOn n,
        ∃ j, ∃ (hj : j < L.length), j < k ∧ d ∈ L.get ⟨j, hj⟩) ∧
      (∀ k (hk : k < L.length), ∀ a ∈ L.get ⟨k, hk⟩, ∀ b ∈ L.get ⟨k, hk⟩,
        b ∉ gAB.dependsOn a)) ∧
    (∃ stuck, Build gCD = .error (.cyclicDependency stuck) ∧
      stuck ≠ [] ∧ (∀ x ∈ stuck, x ∈ gCD.nodes) ∧ (∃ n ∈ stuck, DependsPath gCD n n) ∧
      ∀ beh hash prior, ApplyRun gCD beh hash prior = .error (.cyclicDependency stuck)) :=
  ⟨(graph_build_levels_correct gAB (by unfold GraphWF; decide)).1
      (build_ok_no_cycle gAB (by unfold GraphWF; decide) [["B"], ["A"]] (by rfl)),
   (graph_build_levels_correct gCD (by unfold GraphWF; decide)).2
      ⟨"C", by decide,
        DependsPath.step (show "D" ∈ gCD.dependsOn "C" by decide)
          (DependsPath.single (show "C" ∈ gCD.dependsOn "D" by decide))⟩⟩

/-- C6: destroy order is the exact reverse of apply order.  For the
two-node graph where `A` depends on `B`, apply processes `[B, A]` and
destroy exactly `[A, B]`; in general `DestroyLevels` is `Levels` run
in reverse, and within the apply levels a dependency's level index is
strictly smaller than its dependent's, so the reversed walk destroys
every dependent before any of its dependencies. -/
theorem destroy_order_reverse :
    (Levels gAB = some [["B"], ["A"]] ∧
      DestroyLevels gAB = some [["A"], ["B"]] ∧
      (DestroyLevels gAB).map List.flatten = some ["A", "B"]) ∧
    (∀ g : Graph, GraphWF g → ∀ L, Build g = .ok L →
      DestroyLevels g = some L.reverse ∧
      ∀ i j (hi : i < L.length) (hj : j < L.length),
        ∀ n ∈ L.get ⟨i, hi⟩, ∀ d ∈ g.dependsOn n,
          d ∈ L.get ⟨j, hj⟩ → j < i) := by
  constructor
  · exact ⟨rfl, rfl, rfl⟩
  · intro g hwf L hB
    have hlv := buildAux_levelsOK g.dependsOn _ _ _ _ hB
    have hperm := buildAux_perm g.dependsOn _ _ _ _ hB
    have hnd : L.flatten.Nodup := hperm.nodup_iff.mpr hwf.1
    refine ⟨by simp [DestroyLevels, hB], ?_⟩
    intro i j hi hj n hn d hd hdj
    rcases levelsOK_indexed g.dependsOn L [] hlv i hi n hn d hd with h | ⟨j', hj', hj'i, hdj'⟩
    · simp at h
    · have : j = j' := flatten_nodup_unique_batch L hnd j j' hj hj' d hdj hdj'
      omega

/-- C6, witness: instantiating the general reversal statement on the
two-node graph `A → B` with its computed levels `[[B], [A]]`. -/
theorem destroy_order_reverse_witness :
    DestroyLevels gAB = some [["B"], ["A"]].reverse ∧
    ∀ i j (hi : i < ([["B"], ["A"]] : List (List String)).length)
      (hj : j < ([["B"], ["A"]] : List (List String)).length),
      ∀ n ∈ [["B"], ["A"]].get ⟨i, hi⟩, ∀ d ∈ gAB.dependsOn n,
        d ∈ [["B"], ["A"]].get ⟨j, hj⟩ → j < i :=
  destroy_order_reverse.2 gAB (by unfold GraphWF; decide) [["B"], ["A"]] (by rfl)

/-! ### Scheduler lemmas -/

theorem lookup_stateUpsert_self (es : List (String × Nat)) (n : String) (h : Nat) :
    (stateUpsert es n h).lookup n = some h := by
  simp [stateUpsert, List.lookup]

theorem lookup_stateRemove_other (es : List (String × Nat)) (n m : String) (hne : m ≠ n) :
    (stateRemove es n).lookup m = es.lookup m := by
  induction es with
  | nil => rfl
  | cons e rest ih =>
    obtain ⟨k, v⟩ := e
    by_cases hk : k = n
    · subst hk
      have hm : (m == k) = false := beq_eq_false_iff_ne.mpr hne
      simp [stateRemove, List.lookup, hm] at ih ⊢
      simpa [stateRemove] using ih
    · have hk' : (k == n) = false := beq_eq_false_iff_ne.mpr hk
      by_cases hm : m = k
      · subst hm
        simp [stateRemove, List.lookup, hk']
      · have hm' : (m == k) = false := beq_eq_false_iff_ne.mpr hm
        simp only [stateRemove, List.filter, hk', Bool.not_false, List.lookup, hm']
        simpa [stateRemove] using ih

theorem lookup_stateUpsert_other (es : List (String × Nat)) (n : String) (h : Nat)
    (m : String) (hne : m ≠ n) :
    (stateUpsert es n h).lookup m = es.lookup m := by
  have hm : (m == n) = false := beq_eq_false_iff_ne.mpr hne
  simp only [stateUpsert, List.lookup, hm]
  exact lookup_stateRemove_other es n m hne

/-- Second-run induction: when every resource already has a StateEntry
matching its declared config hash and no Provider reports a change,
processing a schedule issues exactly one Refresh per scheduled
resource and no Create, keeps the state entries, and marks every
scheduled resource created. -/
theorem applySchedule_refresh_only (beh : ProviderBehavior) (deps : String → List String)
    (hash : String → Nat) (nodes : List String)
    (hch : ∀ r, beh.changed r = false) (hrf : ∀ r, beh.refreshOk r = true) :
    ∀ (sched good : List String) (rs : RunState),
      (∀ r ∈ sched, r ∈ nodes) →
      (∀ r ∈ nodes, rs.entries.lookup r = some (hash r)) →
      (∀ r, rs.status r = .pending ∨ rs.status r = .created) →
      (∀ r ∈ good, rs.status r = .created) →
      ((sched.foldl (applyResource beh deps hash) rs).calls =
          rs.calls ++ sched.map OpCall.refresh ∧
        (∀ r ∈ nodes,
          (sched.foldl (applyResource beh deps hash) rs).entries.lookup r = some (hash r)) ∧
        (∀ r, (sched.foldl (applyResource beh deps hash) rs).status r = .pending ∨
          (sched.foldl (applyResource beh deps hash) rs).status r = .created) ∧
        (∀ r ∈ good ++ sched, (sched.foldl (applyResource beh deps hash) rs).status r = .created)) := by
  intro sched
  induction sched with
  | nil =>
    intro good rs _ hent hst hgood
    refine ⟨by simp, hent, hst, ?_⟩
    intro r hr
    rw [List.append_nil] at hr
    exact hgood r hr
  | cons n rest ih =>
    intro good rs hsub hent hst hgood
    have hnn : n ∈ nodes := hsub n (List.mem_cons_self n rest)
    have hblocked : blockedByDeps deps rs.status n = false := by
      rw [blockedByDeps]
      rw [List.any_eq_false]
      intro d _
      rcases hst d with h | h <;> simp [h]
    have hdec : diffDecision (rs.entries.lookup n) (hash n) (beh.changed n) =
        Decision.refreshOnly := by
      rw [hent n hnn, hch n]
      simp [diffDecision]
    have hstep : applyResource beh deps hash rs n =
        { status := fun m => if m = n then .created else rs.status m,
          entries := stateUpsert rs.entries n (hash n),
          calls := rs.calls ++ [.refresh n] } := by
      rw [applyResource, hblocked]
      simp only [Bool.false_eq_true, if_false, hdec, hrf n, if_true]
    have hfold : (n :: rest).foldl (applyResource beh deps hash) rs =
        rest.foldl (applyResource beh deps hash) (applyResource beh deps hash rs n) := rfl
    rw [hfold, hstep]
    have hent' : ∀ r ∈ nodes,
        (stateUpsert rs.entries n (hash n)).lookup r = some (hash r) := by
      intro r hr
      by_cases hrn : r = n
      · subst hrn; exact lookup_stateUpsert_self _ _ _
      · rw [lookup_stateUpsert_other _ _ _ _ hrn]; exact hent r hr
    have hst' : ∀ r, (fun m => if m = n then Status.created else rs.status m) r = .pending ∨
        (fun m => if m = n then Status.created else rs.status m) r = .created := by
      intro r
      by_cases hrn : r = n
      · subst hrn; simp
      · simp only [hrn, if_false]; exact hst r
    have hgood' : ∀ r ∈ good ++ [n],
        (fun m => if m = n then Status.created else rs.status m) r = .created := by
      intro r hr
      by_cases hrn : r = n
      · subst hrn; simp
      · simp only [hrn, if_false]
        rcases List.mem_append.mp hr with h | h
        · exact hgood r h
        · exact absurd (List.mem_singleton.mp h) hrn
    obtain ⟨hc, he, hs, hcr⟩ := ih (good ++ [n])
      { status := fun m => if m = n then .created else rs.status m,
        entries := stateUpsert rs.entries n (hash n),
        calls := rs.calls ++ [.refresh n] }
      (fun r hr => hsub r (List.mem_cons_of_mem n hr)) hent' hst' hgood'
    refine ⟨?_, he, hs, ?_⟩
    · rw [hc]; simp
    · intro r hr
      apply hcr
      simpa using hr

/-- C2: idempotence of Apply.  Re-applying a declared set whose
StateEntries all match the declared config hashes, with every
Provider's `Changed()` false, issues zero Create (and zero Destroy)
calls and exactly one Refresh call per resource, ending every resource
created; and the build provider's `Refresh` performs no Destroy and no
Create when the build-context hash equals the stored checksum. -/
theorem apply_idempotent (g : Graph) (hwf : GraphWF g) (beh : ProviderBehavior)
    (hash : String → Nat) (prior : List (String × Nat)) (L : List (List String))
    (hB : Build g = .ok L)
    (hprior : ∀ r ∈ g.nodes, prior.lookup r = some (hash r))
    (hch : ∀ r, beh.changed r = false) (hrf : ∀ r, beh.refreshOk r = true) :
    (∃ rs, ApplyRun g beh hash prior = .ok rs ∧
      rs.calls = L.flatten.map OpCall.refresh ∧
      (∀ r ∈ g.nodes, rs.calls.count (.refresh r) = 1 ∧
        rs.calls.count (.create r) = 0 ∧ rs.calls.count (.destroy r) = 0) ∧
      (∀ r ∈ g.nodes, rs.status r = .created)) ∧
    (∀ hDir rebuild, buildRefresh (.ok hDir) hDir rebuild = ([], .ok ())) := by
  constructor
  · have hperm := buildAux_perm g.dependsOn _ _ _ _ hB
    obtain ⟨hc, he, hs, hcr⟩ :=
      applySchedule_refresh_only beh g.dependsOn hash g.nodes hch hrf
        L.flatten [] (initRunState prior)
        (fun r hr => hperm.mem_iff.mp hr)
        (fun r hr => hprior r hr)
        (fun r => Or.inl rfl)
        (fun r hr => by simp at hr)
    refine ⟨applySchedule beh g.dependsOn hash prior L.flatten, by simp [ApplyRun, hB], ?_, ?_, ?_⟩
    · simpa [applySchedule, initRunState] using hc
    · intro r hr
      have hrf' : r ∈ L.flatten := hperm.mem_iff.mpr hr
      have hinj : Function.Injective OpCall.refresh := by
        intro a b hab
        injection hab
      have hcalls : (applySchedule beh g.dependsOn hash prior L.flatten).calls =
          L.flatten.map OpCall.refresh := by
        simpa [applySchedule, initRunState] using hc
      refine ⟨?_, ?_, ?_⟩
      · rw [hcalls, List.count_map_of_injective _ _ hinj, hperm.count_eq,
          List.count_eq_one_of_mem hwf.1 hr]
      · rw [hcalls]
        apply List.count_eq_zero.mpr
        intro hmem
        obtain ⟨x, _, hx⟩ := List.mem_map.mp hmem
        simp at hx
      · rw [hcalls]
        apply List.count_eq_zero.mpr
        intro hmem
        obtain ⟨x, _, hx⟩ := List.mem_map.mp hmem
        simp at hx
    · intro r hr
      exact hcr r (by simpa using hperm.mem_iff.mpr hr)
  · intro hDir rebuild
    simp [buildRefresh, buildHasChanged]

/-- C2, witness: the two-node graph re-applied over a matching state
issues refreshes only, and the build provider's refresh is a no-op on
a matching checksum. -/
theorem apply_idempotent_witness :
    (∃ rs, ApplyRun gAB
        { createOk := fun _ => true, destroyOk := fun _ => true,
          refreshOk := fun _ => true, changed := fun _ => false }
        (fun _ => 7) [("A", 7), ("B", 7)] = .ok rs ∧
      rs.calls = [["B"], ["A"]].flatten.map OpCall.refresh ∧
      (∀ r ∈ gAB.nodes, rs.calls.count (.refresh r) = 1 ∧
        rs.calls.count (.create r) = 0 ∧ rs.calls.count (.destroy r) = 0) ∧
      (∀ r ∈ gAB.nodes, rs.status r = .created)) ∧
    buildRefresh (.ok "h1:abc") "h1:abc" (.ok ()) = ([], .ok ()) :=
  ⟨(apply_idempotent gAB (by unfold GraphWF; decide)
      { createOk := fun _ => true, destroyOk := fun _ => true,
        refreshOk := fun _ => true, changed := fun _ => false }
      (fun _ => 7) [("A", 7), ("B", 7)] [["B"], ["A"]] (by rfl)
      (by decide) (fun _ => rfl) (fun _ => rfl)).1,
   (apply_idempotent gAB (by unfold GraphWF; decide)
      { createOk := fun _ => true, destroyOk := fun _ => true,
        refreshOk := fun _ => true, changed := fun _ => false }
      (fun _ => 7) [("A", 7), ("B", 7)] [["B"], ["A"]] (by rfl)
      (by decide) (fun _ => rfl) (fun _ => rfl)).2 "h1:abc" (.ok ())⟩

/-- C3: the diff decision rule.  With a matching StateEntry the
resource is replaced exactly when the stored hash differs from the
declared config hash or the Provider's `Changed()` reports true
(logical OR), refreshed otherwise; without a StateEntry it is always
treated as new, and the scheduler then issues a Create and marks it
created.  The build resource's `Changed()` reports true exactly when
the directory hash of the build context differs from the stored
`BuildChecksum`. -/
theorem diff_decision_rule :
    (∀ (entry : Option Nat) (h : Nat) (pc : Bool),
      (diffDecision entry h pc = .createNew ↔ entry = none) ∧
      (∀ h', entry = some h' →
        ((diffDecision entry h pc = .replace ↔ (h' ≠ h ∨ pc = true)) ∧
         (diffDecision entry h pc = .refreshOnly ↔ (h' = h ∧ pc = false))))) ∧
    (∀ beh deps hash (rs : RunState) n,
      blockedByDeps deps rs.status n = false →
      rs.entries.lookup n = none → beh.createOk n = true →
      (applyResource beh deps hash rs n).calls = rs.calls ++ [.create n] ∧
      (applyResource beh deps hash rs n).status n = .created) ∧
    (∀ h checksum, buildChanged (.ok h) checksum = .ok (h != checksum) ∧
      (buildChanged (.ok h) checksum = .ok true ↔ h ≠ checksum)) ∧
    (∀ e checksum,
      buildChanged (.error e) checksum = .error ("unable to hash directory: " ++ e)) := by
  refine ⟨?_, ?_, ?_, ?_⟩
  · intro entry h pc
    constructor
    · cases entry with
      | none => simp [diffDecision]
      | some h' =>
        simp only [diffDecision]
        by_cases hh : (h' != h || pc) = true
        · simp [hh]
        · simp [hh]
    · intro h' hentry
      subst hentry
      constructor
      · simp only [diffDecision]
        by_cases hh : h' = h
        · subst hh
          cases pc <;> simp
        · have : (h' != h) = true := bne_iff_ne.mpr hh
          simp [this, hh]
      · simp only [diffDecision]
        by_cases hh : h' = h
        · subst hh
          cases pc <;> simp
        · have : (h' != h) = true := bne_iff_ne.mpr hh
          simp [this, hh]
  · intro beh deps hash rs n hbl hlook hok
    rw [applyResource, hbl]
    simp only [Bool.false_eq_true, if_false, hlook, diffDecision, hok, if_true]
    refine ⟨?_, ?_⟩ <;> simp
  · intro h checksum
    refine ⟨rfl, ?_⟩
    simp [buildChanged, buildHasChanged, bne_iff_ne]
  · intro e checksum
    rfl

/-- C3, witness: a resource whose stored hash 3 differs from the
declared hash 5 is replaced; a matching entry with `Changed()` false
is refreshed; no entry means create; and the build provider reports a
change exactly on differing checksums. -/
theorem diff_decision_rule_witness :
    diffDecision (some 3) 5 false = .replace ∧
    diffDecision (some 5) 5 true = .replace ∧
    diffDecision (some 5) 5 false = .refreshOnly ∧
    (diffDecision none 5 false = .createNew ↔ (none : Option Nat) = none) ∧
    buildChanged (.ok "h1:new") "h1:old" = .ok true ∧
    buildChanged (.ok "h1:same") "h1:same" = .ok false :=
  ⟨((diff_decision_rule.1 (some 3) 5 false).2 3 rfl).1.mpr (Or.inl (by decide)),
   ((diff_decision_rule.1 (some 5) 5 true).2 5 rfl).1.mpr (Or.inr rfl),
   ((diff_decision_rule.1 (some 5) 5 false).2 5 rfl).2.mpr ⟨rfl, rfl⟩,
   (diff_decision_rule.1 none 5 false).1,
   (diff_decision_rule.2.2.1 "h1:new" "h1:old").2.mpr (by decide),
   (diff_decision_rule.2.2.1 "h1:same" "h1:same").1⟩

/-- Unfolding a dependency path through its first edge. -/
theorem dependsPath_head_iff (g : Graph) (n X : String) :
    DependsPath g n X ↔ ∃ d ∈ g.dependsOn n, d = X ∨ DependsPath g d X := by
  constructor
  · intro hp
    cases hp with
    | single h => exact ⟨X, h, Or.inl rfl⟩
    | step h htail => exact ⟨_, h, Or.inr htail⟩
  · rintro ⟨d, hd, rfl | hp⟩
    · exact DependsPath.single hd
    · exact DependsPath.step hd hp

/-- Extending the containment invariant by one processed resource. -/
theorem ContainmentInv_extend (g : Graph) (X : String) (hash : String → Nat)
    (prior : List (String × Nat)) (seen : List String) (n : String) (rs rs' : RunState)
    (hinv : ContainmentInv g X hash prior seen rs)
    (hnseen : n ∉ seen)
    (f2 : ∀ m, m ≠ n → rs'.status m = rs.status m)
    (f4 : ∀ m, m ≠ n → rs'.entries.lookup m = rs.entries.lookup m)
    (hn1 : n = X → rs'.status n = Status.failed ∧ rs'.entries.lookup n = prior.lookup n)
    (hn2 : DependsPath g n X →
      rs'.status n = Status.blocked ∧ rs'.entries.lookup n = prior.lookup n)
    (hn3 : n ≠ X → ¬ DependsPath g n X →
      rs'.status n = Status.created ∧ rs'.entries.lookup n = some (hash n)) :
    ContainmentInv g X hash prior (seen ++ [n]) rs' := by
  obtain ⟨h_un, h_pr⟩ := hinv
  constructor
  · intro m hm
    have hmn : m ≠ n := by
      intro hc
      exact hm (by simp [hc])
    have hms : m ∉ seen := by
      intro hc
      exact hm (by simp [hc])
    rw [f2 m hmn, f4 m hmn]
    exact h_un m hms
  · intro m hm
    rcases List.mem_append.mp hm with h | h
    · have hmn : m ≠ n := by
        intro hc
        exact hnseen (hc ▸ h)
      obtain ⟨c1, c2, c3⟩ := h_pr m h
      refine ⟨?_, ?_, ?_⟩
      · intro hmx
        rw [f2 m hmn, f4 m hmn]
        exact c1 hmx
      · intro hp
        rw [f2 m hmn, f4 m hmn]
        exact c2 hp
      · intro hmx hp
        rw [f2 m hmn, f4 m hmn]
        exact c3 hmx hp
    · rcases List.mem_singleton.mp h with rfl
      exact ⟨hn1, hn2, hn3⟩

/-- The apply fold preserves the containment invariant along a
topologically ordered schedule of graph nodes. -/
theorem containment_fold (g : Graph) (X : String)
    (hnc : ¬ HasCycle g)
    (beh : ProviderBehavior) (hash : String → Nat) (prior : List (String × Nat))
    (hCX : beh.createOk X = false) (hCO : ∀ r, r ≠ X → beh.createOk r = true)
    (hDO : ∀ r, beh.destroyOk r = true) (hRO : ∀ r, beh.refreshOk r = true)
    (hXdec : diffDecision (prior.lookup X) (hash X) (beh.changed X) ≠ .refreshOnly) :
    ∀ (sched seen : List String) (rs : RunState),
      TopoFrom g.dependsOn seen sched →
      (seen ++ sched).Nodup →
      (∀ x ∈ seen ++ sched, x ∈ g.nodes) →
      ContainmentInv g X hash prior seen rs →
      ContainmentInv g X hash prior (seen ++ sched)
        (sched.foldl (applyResource beh g.dependsOn hash) rs) := by
  intro sched
  induction sched with
  | nil =>
    intro seen rs _ _ _ hinv
    simpa using hinv
  | cons n rest ih =>
    intro seen rs htf hnd hmem hinv
    obtain ⟨hdeps, htf'⟩ := htf
    have hnseen : n ∉ seen := by
      intro hc
      exact (List.disjoint_of_nodup_append hnd) hc (List.mem_cons_self _ _)
    have hnnode : n ∈ g.nodes := hmem n (by simp)
    have h_un := hinv.1
    have h_pr := hinv.2
    have hnstat : rs.status n = .pending := (h_un n hnseen).1
    have hnent : rs.entries.lookup n = prior.lookup n := (h_un n hnseen).2
    -- the state after processing n, by cases on n's relation to X
    have hkey : ∃ rs' : RunState,
        applyResource beh g.dependsOn hash rs n = rs' ∧
        (∀ m, m ≠ n → rs'.status m = rs.status m) ∧
        (∀ m, m ≠ n → rs'.entries.lookup m = rs.entries.lookup m) ∧
        (n = X → rs'.status n = Status.failed ∧ rs'.entries.lookup n = prior.lookup n) ∧
        (DependsPath g n X →
          rs'.status n = Status.blocked ∧ rs'.entries.lookup n = prior.lookup n) ∧
        (n ≠ X → ¬ DependsPath g n X →
          rs'.status n = Status.created ∧ rs'.entries.lookup n = some (hash n)) := by
      by_cases hpath : DependsPath g n X
      · -- n transitively depends on X: a direct dependency is failed or blocked
        have hnX : n ≠ X := by
          rintro rfl
          exact hnc ⟨n, hnnode, hpath⟩
        obtain ⟨d, hd, hdX⟩ := (dependsPath_head_iff g n X).mp hpath
        have hdseen := hdeps d hd
        have hdstat : rs.status d = .failed ∨ rs.status d = .blocked := by
          rcases hdX with rfl | hdp
          · exact Or.inl ((h_pr d hdseen).1 rfl).1
          · by_cases hdXeq : d = X
            · subst hdXeq
              exact absurd ⟨d, hmem d (List.mem_append_left _ hdseen), hdp⟩ hnc
            · exact Or.inr ((h_pr d hdseen).2.1 hdp).1
        have hblocked : blockedByDeps g.dependsOn rs.status n = true := by
          rw [blockedByDeps, List.any_eq_true]
          refine ⟨d, hd, ?_⟩
          rcases hdstat with h | h <;> simp [h]
        refine ⟨{ rs with status := fun m => if m = n then .blocked else rs.status m },
          ?_, ?_, ?_, ?_, ?_, ?_⟩
        · rw [applyResource, hblocked]
          simp
        · intro m hm; simp [hm]
        · intro m _; rfl
        · intro hc; exact absurd hc hnX
        · intro _; exact ⟨by simp, hnent⟩
        · intro _ hc; exact absurd hpath hc
      · by_cases hnX : n = X
        · -- n is X itself: no dependency blocks it, Create is called and fails
          subst hnX
          have hblocked : blockedByDeps g.dependsOn rs.status n = false := by
            rw [blockedByDeps, List.any_eq_false]
            intro d hd
            have hdseen := hdeps d hd
            have hdnX : d ≠ n := by
              rintro rfl
              exact hpath (DependsPath.single hd)
            have hdnp : ¬ DependsPath g d n := by
              intro hp
              exact hpath (DependsPath.step hd hp)
            have := ((h_pr d hdseen).2.2 hdnX hdnp).1
            simp [this]
          have hdec := hXdec
          rw [← hnent] at hdec
          cases hdecc : diffDecision (rs.entries.lookup n) (hash n) (beh.changed n) with
          | refreshOnly => exact absurd hdecc hdec
          | createNew =>
            refine ⟨{ rs with
                status := fun m => if m = n then .failed else rs.status m
                calls := rs.calls ++ [.create n] }, ?_, ?_, ?_, ?_, ?_, ?_⟩
            · rw [applyResource, hblocked]
              simp [hdecc, hCX]
            · intro m hm; simp [hm]
            · intro m _; rfl
            · intro _; exact ⟨by simp, hnent⟩
            · intro hc; exact absurd hc hpath
            · intro hc _; exact absurd rfl hc
          | replace =>
            refine ⟨{ rs with
                status := fun m => if m = n then .failed else rs.status m
                calls := rs.calls ++ [.destroy n, .create n] }, ?_, ?_, ?_, ?_, ?_, ?_⟩
            · rw [applyResource, hblocked]
              simp [hdecc, hCX, hDO n]
            · intro m hm; simp [hm]
            · intro m _; rfl
            · intro _; exact ⟨by simp, hnent⟩
            · intro hc; exact absurd hc hpath
            · intro hc _; exact absurd rfl hc
        · -- n is independent of X: all its dependencies are created
          have hblocked : blockedByDeps g.dependsOn rs.status n = false := by
            rw [blockedByDeps, List.any_eq_false]
            intro d hd
            have hdseen := hdeps d hd
            have hdnX : d ≠ X := by
              rintro rfl
              exact hpath (DependsPath.single hd)
            have hdnp : ¬ DependsPath g d X := by
              intro hp
              exact hpath (DependsPath.step hd hp)
            have := ((h_pr d hdseen).2.2 hdnX hdnp).1
            simp [this]
          have hok : beh.createOk n = true := hCO n hnX
          cases hdecc : diffDecision (rs.entries.lookup n) (hash n) (beh.changed n) with
          | createNew =>
            refine ⟨{
                status := fun m => if m = n then .created else rs.status m
                entries := stateUpsert rs.entries n (hash n)
                calls := rs.calls ++ [.create n] }, ?_, ?_, ?_, ?_, ?_, ?_⟩
            · rw [applyResource, hblocked]
              simp [hdecc, hok]
            · intro m hm; simp [hm]
            · intro m hm; exact lookup_stateUpsert_other _ _ _ _ hm
            · intro hc; exact absurd hc hnX
            · intro hc; exact absurd hc hpath
            · intro _ _; exact ⟨by simp, lookup_stateUpsert_self _ _ _⟩
          | replace =>
            refine ⟨{
                status := fun m => if m = n then .created else rs.status m
                entries := stateUpsert rs.entries n (hash n)
                calls := rs.calls ++ [.destroy n, .create n] }, ?_, ?_, ?_, ?_, ?_, ?_⟩
            · rw [applyResource, hblocked]
              simp [hdecc, hok, hDO n]
            · intro m hm; simp [hm]
            · intro m hm; exact lookup_stateUpsert_other _ _ _ _ hm
            · intro hc; exact absurd hc hnX
            · intro hc; exact absurd hc hpath
            · intro _ _; exact ⟨by simp, lookup_stateUpsert_self _ _ _⟩
          | refreshOnly =>
            refine ⟨{
                status := fun m => if m = n then .created else rs.status m
                entries := stateUpsert rs.entries n (hash n)
                calls := rs.calls ++ [.refresh n] }, ?_, ?_, ?_, ?_, ?_, ?_⟩
            · rw [applyResource, hblocked]
              simp [hdecc, hRO n]
            · intro m hm; simp [hm]
            · intro m hm; exact lookup_stateUpsert_other _ _ _ _ hm
            · intro hc; exact absurd hc hnX
            · intro hc; exact absurd hc hpath
            · intro _ _; exact ⟨by simp, lookup_stateUpsert_self _ _ _⟩
    obtain ⟨rs', hrs', f2, f4, hn1, hn2, hn3⟩ := hkey
    have hinv' : ContainmentInv g X hash prior (seen ++ [n]) rs' :=
      ContainmentInv_extend g X hash prior seen n rs rs' hinv hnseen f2 f4 hn1 hn2 hn3
    have hfold : (n :: rest).foldl (applyResource beh g.dependsOn hash) rs =
        rest.foldl (applyResource beh g.dependsOn hash) rs' := by
      simp [List.foldl_cons, hrs']
    rw [hfold]
    have heq : (seen ++ [n]) ++ rest = seen ++ n :: rest := by simp
    rw [← heq]
    exact ih (seen ++ [n]) rs' htf' (by simpa using hnd)
      (fun x hx => hmem x (by simpa using hx)) hinv'

/-- C4: failure containment.  In a run where exactly resource `X`'s
Create fails (every other Provider call succeeds, and the diff
decision for `X` leads to a Create), `X` ends failed with its state
untouched, every transitive dependent of `X` ends blocked with no
StateEntry written for it (none at all on a fresh run), and every
resource with no dependency path to `X` ends created with its
StateEntry upserted. -/
theorem failure_containment (g : Graph) (hwf : GraphWF g) (X : String) (hXn : X ∈ g.nodes)
    (beh : ProviderBehavior) (hash : String → Nat) (prior : List (String × Nat))
    (L : List (List String)) (hB : Build g = .ok L)
    (hCX : beh.createOk X = false) (hCO : ∀ r, r ≠ X → beh.createOk r = true)
    (hDO : ∀ r, beh.destroyOk r = true) (hRO : ∀ r, beh.refreshOk r = true)
    (hXdec : diffDecision (prior.lookup X) (hash X) (beh.changed X) ≠ .refreshOnly) :
    ∃ rs, ApplyRun g beh hash prior = .ok rs ∧
      rs.status X = .failed ∧ rs.entries.lookup X = prior.lookup X ∧
      (∀ n ∈ g.nodes, DependsPath g n X →
        rs.status n = .blocked ∧ rs.entries.lookup n = prior.lookup n) ∧
      (prior = [] → ∀ n ∈ g.nodes, DependsPath g n X → rs.entries.lookup n = none) ∧
      (∀ n ∈ g.nodes, n ≠ X → ¬ DependsPath g n X →
        rs.status n = .created ∧ rs.entries.lookup n = some (hash n)) := by
  have hnc : ¬ HasCycle g := build_ok_no_cycle g hwf L hB
  have hlv := buildAux_levelsOK g.dependsOn _ _ _ _ hB
  have hperm := buildAux_perm g.dependsOn _ _ _ _ hB
  have hnd : L.flatten.Nodup := hperm.nodup_iff.mpr hwf.1
  have htf : TopoFrom g.dependsOn [] L.flatten := levelsOK_topoFrom g.dependsOn L [] hlv
  have hinit : ContainmentInv g X hash prior [] (initRunState prior) := by
    constructor
    · intro m _
      exact ⟨rfl, rfl⟩
    · intro m hm
      simp at hm
  have hfinal := containment_fold g X hnc beh hash prior hCX hCO hDO hRO hXdec
    L.flatten [] (initRunState prior) htf (by simpa using hnd)
    (fun x hx => hperm.mem_iff.mp (by simpa using hx)) hinit
  have hproc : ∀ n ∈ g.nodes, n ∈ ([] : List String) ++ L.flatten := by
    intro n hn
    simpa using hperm.mem_iff.mpr hn
  obtain ⟨_, h_pr⟩ := hfinal
  refine ⟨applySchedule beh g.dependsOn hash prior L.flatten, by simp [ApplyRun, hB],
    ?_, ?_, ?_, ?_, ?_⟩
  · exact ((h_pr X (hproc X hXn)).1 rfl).1
  · exact ((h_pr X (hproc X hXn)).1 rfl).2
  · intro n hn hp
    exact (h_pr n (hproc n hn)).2.1 hp
  · rintro rfl n hn hp
    exact ((h_pr n (hproc n hn)).2.1 hp).2
  · intro n hn hnX hp
    exact (h_pr n (hproc n hn)).2.2 hnX hp

/-- C4, witness: in the three-node graph where `w` depends on the
failing resource `x` and `s` is an independent sibling, a fresh apply
leaves `x` failed, `w` blocked with no StateEntry, and `s` created. -/
theorem failure_containment_witness :
    ∃ rs, ApplyRun gXWS
        { createOk := fun r => !(r == "x"), destroyOk := fun _ => true,
          refreshOk := fun _ => true, changed := fun _ => false }
        (fun _ => 1) [] = .ok rs ∧
      rs.status "x" = .failed ∧
      rs.entries.lookup "x" = List.lookup "x" ([] : List (String × Nat)) ∧
      (∀ n ∈ gXWS.nodes, DependsPath gXWS n "x" →
        rs.status n = .blocked ∧ rs.entries.lookup n = List.lookup n ([] : List (String × Nat))) ∧
      (([] : List (String × Nat)) = [] → ∀ n ∈ gXWS.nodes, DependsPath gXWS n "x" →
        rs.entries.lookup n = none) ∧
      (∀ n ∈ gXWS.nodes, n ≠ "x" → ¬ DependsPath gXWS n "x" →
        rs.status n = .created ∧ rs.entries.lookup n = some 1) :=
  failure_containment gXWS (by unfold GraphWF; decide) "x" (by decide)
    { createOk := fun r => !(r == "x"), destroyOk := fun _ => true,
      refreshOk := fun _ => true, changed := fun _ => false }
    (fun _ => 1) [] [["x", "s"], ["w"]] (by rfl)
    (by decide) (fun r hr => by simp [hr]) (fun _ => rfl) (fun _ => rfl)
    (by decide)

end Jumppad
